import Mathlib

/-
Verification of the USASpending award-download pipeline (src/awards.py,
class AwardSearchDownload). Each Python routine relevant to the claims is
shallowly embedded as an executable Lean definition: pandas series become
lists of rationals, JSON dictionaries become association lists with the
Python dict update semantics, the network and the filesystem become
explicit oracles and state records, and a raised exception becomes an
Option or Except failure value.
-/

namespace Awards

/-! ### Python dictionaries (json objects)

A Python dict is modelled as an association list. Assignment d[k] = v
replaces the value at the first (unique) occurrence of k in place, or
appends the new pair at the end, exactly as CPython preserves insertion
order. -/

def dictInsert {β : Type} : List (String × β) → String → β → List (String × β)
  | [], k, v => [(k, v)]
  | (k0, v0) :: rest, k, v =>
    if k0 = k then (k, v) :: rest else (k0, v0) :: dictInsert rest k v

def lookupD {β : Type} : List (String × β) → String → Option β
  | [], _ => none
  | (k0, v0) :: rest, k => if k0 = k then some v0 else lookupD rest k

theorem lookupD_dictInsert {β : Type} (m : List (String × β)) (k j : String) (v : β) :
    lookupD (dictInsert m k v) j = if j = k then some v else lookupD m j := by
  induction m with
  | nil =>
    by_cases h : j = k <;> by_cases h2 : k = j <;> simp_all [dictInsert, lookupD]
  | cons p rest ih =>
    obtain ⟨k0, v0⟩ := p
    by_cases h0 : k0 = k <;> by_cases h1 : j = k <;> by_cases h2 : k0 = j <;>
      simp_all [dictInsert, lookupD]

theorem keys_dictInsert {β : Type} (m : List (String × β)) (k : String) (v : β) :
    (dictInsert m k v).map Prod.fst = m.map Prod.fst ∨
      (dictInsert m k v).map Prod.fst = m.map Prod.fst ++ [k] := by
  induction m with
  | nil => right; rfl
  | cons p rest ih =>
    obtain ⟨k0, v0⟩ := p
    by_cases h0 : k0 = k
    · left; simp [dictInsert, h0]
    · rcases ih with h | h
      · left; simp [dictInsert, h0, h]
      · right; simp [dictInsert, h0, h]

theorem nodup_keys_dictInsert {β : Type} (m : List (String × β)) (k : String) (v : β)
    (hm : (m.map Prod.fst).Nodup) : ((dictInsert m k v).map Prod.fst).Nodup := by
  induction m with
  | nil => simp [dictInsert]
  | cons p rest ih =>
    obtain ⟨k0, v0⟩ := p
    simp only [List.map_cons, List.nodup_cons] at hm
    by_cases h0 : k0 = k
    · subst h0
      simpa [dictInsert] using hm
    · have htail := ih hm.2
      simp only [dictInsert, if_neg h0, List.map_cons, List.nodup_cons]
      refine ⟨?_, htail⟩
      rcases keys_dictInsert rest k v with h | h
      · rw [h]; exact hm.1
      · rw [h]
        simp only [List.mem_append, List.mem_singleton]
        rintro (hmem | rfl)
        · exact hm.1 hmem
        · exact h0 rfl

/-! ### Time-Series Normalizer: calculate outlays for indices

Models the series assignment in AwardSearchDownload._calculate_outlays_for_indices:
the per-period outlay series is gross_outlays.diff().fillna(gross_outlays),
i.e. each element minus the previous one, with the first element (whose
diff is NaN) replaced by the element itself. -/

def diffFillFirst : Rat → List Rat → List Rat
  | _, [] => []
  | prev, y :: ys => (y - prev) :: diffFillFirst y ys

def calculate_outlays_for_indices : List Rat → List Rat
  | [] => []
  | x :: xs => x :: diffFillFirst x xs

theorem length_diffFillFirst (prev : Rat) (l : List Rat) :
    (diffFillFirst prev l).length = l.length := by
  induction l generalizing prev with
  | nil => rfl
  | cons y ys ih => simp [diffFillFirst, ih]

theorem diffFillFirst_head? (prev : Rat) (l : List Rat) :
    (diffFillFirst prev l)[0]? = l[0]?.map (fun y => y - prev) := by
  cases l <;> simp [diffFillFirst]

theorem diffFillFirst_getElem? (prev : Rat) (l : List Rat) (i : Nat) (a b : Rat)
    (ha : l[i]? = some a) (hb : l[i + 1]? = some b) :
    (diffFillFirst prev l)[i + 1]? = some (b - a) := by
  induction i generalizing prev l with
  | zero =>
    cases l with
    | nil => simp at ha
    | cons y ys =>
      have hy : y = a := by simpa using ha
      subst hy
      have hb0 : ys[0]? = some b := by simpa using hb
      simp [diffFillFirst, diffFillFirst_head?, hb0]
  | succ n ih =>
    cases l with
    | nil => simp at ha
    | cons y ys =>
      have ha1 : ys[n]? = some a := by simpa using ha
      have hb1 : ys[n + 1]? = some b := by simpa using hb
      simpa [diffFillFirst] using ih y ys ha1 hb1

/-- C1: within one fiscal-year/category group sorted by submission period, the
incremental outlay series has the same length as the cumulative series, its
first element is the first cumulative value itself, every later element is the
current cumulative value minus the previous one, and the cumulative sequence
10, 10, 25, 40 yields the increments 10, 0, 15, 15. -/
theorem C1_normalizer_increments :
    (∀ l : List Rat, (calculate_outlays_for_indices l).length = l.length) ∧
    (∀ (x : Rat) (xs : List Rat),
      (calculate_outlays_for_indices (x :: xs))[0]? = some x) ∧
    (∀ (l : List Rat) (i : Nat) (a b : Rat), l[i]? = some a → l[i + 1]? = some b →
      (calculate_outlays_for_indices l)[i + 1]? = some (b - a)) ∧
    calculate_outlays_for_indices [10, 10, 25, 40] = [10, 0, 15, 15] := by
  refine ⟨?_, ?_, ?_, by norm_num [calculate_outlays_for_indices, diffFillFirst]⟩
  · intro l
    cases l with
    | nil => rfl
    | cons x xs => simp [calculate_outlays_for_indices, length_diffFillFirst]
  · intro x xs
    simp [calculate_outlays_for_indices]
  · intro l i a b ha hb
    cases l with
    | nil => simp at ha
    | cons x xs =>
      cases i with
      | zero =>
        have hx : x = a := by simpa using ha
        subst hx
        have hb0 : xs[0]? = some b := by simpa using hb
        simp [calculate_outlays_for_indices, diffFillFirst_head?, hb0]
      | succ n =>
        have ha1 : xs[n]? = some a := by simpa using ha
        have hb1 : xs[n + 1]? = some b := by simpa using hb
        simpa [calculate_outlays_for_indices] using diffFillFirst_getElem? x xs n a b ha1 hb1

/-- Witness for C1 at the documented concrete series. -/
theorem C1_normalizer_increments_witness :
    ([10, 10, 25, 40] : List Rat)[1]? = some 10 ∧
    ([10, 10, 25, 40] : List Rat)[2]? = some 25 ∧
    (calculate_outlays_for_indices [10, 10, 25, 40])[2]? = some 15 := by
  refine ⟨by norm_num, by norm_num, ?_⟩
  have h := C1_normalizer_increments.2.2.1 [10, 10, 25, 40] 1 10 25
    (by norm_num) (by norm_num)
  have h15 : (25 : Rat) - 10 = 15 := by norm_num
  rw [h15] at h
  exact h

/-! ### Staleness Policy: check_overwrite

Models AwardSearchDownload.check_overwrite. The filesystem facts the
routine consults are the existence of the artifact file, the existence of
the downloaded.json timestamp file, and the parsed timestamp map; the
configured critical_download_date is an optional cutoff. Timestamps are
modelled as integers ordered like datetimes. -/

structure COState where
  fileExists : Bool
  timeFileExists : Bool
  timeDict : List (String × Int)
deriving DecidableEq

def check_overwrite (critical : Option Int) (st : COState) (name : String) : Bool :=
  if !st.fileExists then
    true
  else if !st.timeFileExists then
    true
  else
    match critical with
    | none => false
    | some c =>
      match lookupD st.timeDict name with
      | none => true
      | some downloaded => if downloaded ≥ c then false else true

/-- Counterexample to C2 of claim C3 as stated: the artifact file exists, the
timestamp file exists but holds no record for this artifact, and no
critical_download_date is configured; the claim demands True, yet
check_overwrite returns False (the code tests for a missing cutoff before it
ever looks up the per-artifact record). -/
theorem C3_staleness_counterexample :
    lookupD (⟨true, true, []⟩ : COState).timeDict "awards_x.json" = none ∧
    check_overwrite none ⟨true, true, []⟩ "awards_x.json" = false := by
  constructor <;> rfl

/-- C3 amended: check_overwrite returns True when the artifact file does not
exist (regardless of cutoff); True when the timestamp file does not exist;
False when no critical_download_date is set and the timestamp file exists,
regardless of whether the artifact has a recorded entry; and when a cutoff is
set it returns True if the artifact has no recorded entry or its recorded
timestamp is strictly before the cutoff, and False if the recorded timestamp
is at or after the cutoff. -/
theorem C3_staleness_policy (critical : Option Int) (st : COState) (name : String) :
    (st.fileExists = false → check_overwrite critical st name = true) ∧
    (st.timeFileExists = false → check_overwrite critical st name = true) ∧
    (st.fileExists = true → st.timeFileExists = true → critical = none →
      check_overwrite critical st name = false) ∧
    (∀ c : Int, st.fileExists = true → st.timeFileExists = true → critical = some c →
      lookupD st.timeDict name = none → check_overwrite critical st name = true) ∧
    (∀ c t : Int, st.fileExists = true → st.timeFileExists = true → critical = some c →
      lookupD st.timeDict name = some t → t < c → check_overwrite critical st name = true) ∧
    (∀ c t : Int, st.fileExists = true → st.timeFileExists = true → critical = some c →
      lookupD st.timeDict name = some t → t ≥ c → check_overwrite critical st name = false) := by
  refine ⟨?_, ?_, ?_, ?_, ?_, ?_⟩
  · intro h; simp [check_overwrite, h]
  · intro h
    by_cases hf : st.fileExists <;> simp [check_overwrite, h, hf]
  · intro hf ht hc; simp [check_overwrite, hf, ht, hc]
  · intro c hf ht hc hl; simp [check_overwrite, hf, ht, hc, hl]
  · intro c t hf ht hc hl hlt
    simp [check_overwrite, hf, ht, hc, hl, not_le.mpr hlt]
  · intro c t hf ht hc hl hge
    simp [check_overwrite, hf, ht, hc, hl, hge]

/-- Witness for the amended C3: a recorded timestamp strictly before the
cutoff forces a rebuild, and with no cutoff the same state is fresh. -/
theorem C3_staleness_policy_witness :
    check_overwrite (some 10) ⟨true, true, [("awards_x.json", 5)]⟩ "awards_x.json" = true ∧
    check_overwrite none ⟨true, true, [("awards_x.json", 5)]⟩ "awards_x.json" = false := by
  constructor
  · exact (C3_staleness_policy (some 10) ⟨true, true, [("awards_x.json", 5)]⟩
      "awards_x.json").2.2.2.2.1 10 5 rfl rfl rfl (by rfl) (by norm_num)
  · exact (C3_staleness_policy none ⟨true, true, [("awards_x.json", 5)]⟩
      "awards_x.json").2.2.1 rfl rfl rfl

/-! ### Category re-numbering merge: check_class_codes

Models AwardSearchDownload._check_class_codes on the rows selected for one
fiscal year (the indices mask). A row keeps its submission period within
the year (1..12), its object_class_code and its cumulative
gross_outlay_amount_FYB_to_period_end. The object class codes are taken in
order of first appearance (pandas unique); when code 0 coexists with other
codes and no selected row stamps period 12 under code 0, the code-0
cumulative amounts of every period 1..12 are added into the rows of the
first strictly positive code, and code 0 is dropped from the returned code
list; the match on an empty positive-code list models the IndexError the
Python would raise there. -/

structure FRow where
  period : Nat
  code : Int
  gross : Rat
deriving DecidableEq

def uniqueFirstAux (seen : List Int) : List Int → List Int
  | [] => []
  | x :: xs => if x ∈ seen then uniqueFirstAux seen xs else x :: uniqueFirstAux (x :: seen) xs

def uniqueFirst (l : List Int) : List Int := uniqueFirstAux [] l

def unknownGrossAt (rows : List FRow) (p : Nat) : Rat :=
  ((rows.filter (fun r => r.period = p ∧ r.code = 0)).map FRow.gross).sum

def mergePeriod (target : Int) (rows : List FRow) (p : Nat) : List FRow :=
  rows.map (fun r =>
    if r.period = p ∧ r.code = target then
      { r with gross := r.gross + unknownGrossAt rows p } else r)

def check_class_codes (rows : List FRow) : Option (List FRow × List Int) :=
  let codes := uniqueFirst (rows.map FRow.code)
  if 0 ∈ codes ∧ 1 < codes.length then
    if (rows.filter (fun r => r.period = 12 ∧ r.code = 0)).length = 0 then
      match codes.filter (fun c => 0 < c) with
      | [] => none
      | target :: rest =>
        some ((List.range' 1 12).foldl (mergePeriod target) rows, target :: rest)
    else some (rows, codes)
  else some (rows, codes)

theorem unknownGrossAt_cons (r : FRow) (rs : List FRow) (q : Nat) :
    unknownGrossAt (r :: rs) q =
      (if r.period = q ∧ r.code = 0 then r.gross else 0) + unknownGrossAt rs q := by
  by_cases h : r.period = q ∧ r.code = 0 <;> simp [unknownGrossAt, List.filter_cons, h]

theorem unknownGrossAt_map_upd (f : FRow → FRow)
    (hp : ∀ r, (f r).period = r.period) (hc : ∀ r, (f r).code = r.code)
    (hg : ∀ r, r.code = 0 → (f r).gross = r.gross) (rows : List FRow) (q : Nat) :
    unknownGrossAt (rows.map f) q = unknownGrossAt rows q := by
  induction rows with
  | nil => rfl
  | cons r rs ih =>
    rw [List.map_cons, unknownGrossAt_cons, unknownGrossAt_cons, ih]
    by_cases h : r.period = q ∧ r.code = 0
    · rw [if_pos (by rw [hp, hc]; exact h), if_pos h, hg r h.2]
    · rw [if_neg (by rw [hp, hc]; exact h), if_neg h]

theorem unknownGrossAt_mergePeriod (target : Int) (ht : target ≠ 0)
    (rows : List FRow) (p q : Nat) :
    unknownGrossAt (mergePeriod target rows p) q = unknownGrossAt rows q := by
  refine unknownGrossAt_map_upd _ ?_ ?_ ?_ rows q
  · intro r
    by_cases h : r.period = p ∧ r.code = target <;> simp [h]
  · intro r
    by_cases h : r.period = p ∧ r.code = target <;> simp [h]
  · intro r hr0
    have h : ¬(r.period = p ∧ r.code = target) := by
      rintro ⟨-, hct⟩
      exact ht (hct.symm.trans hr0)
    simp [h]

theorem foldl_mergePeriod (target : Int) (ht : target ≠ 0) :
    ∀ ps : List Nat, ps.Nodup → ∀ rows : List FRow,
    ps.foldl (mergePeriod target) rows =
      rows.map (fun r =>
        if r.code = target ∧ r.period ∈ ps then
          { r with gross := r.gross + unknownGrossAt rows r.period } else r) := by
  intro ps
  induction ps with
  | nil =>
    intro _ rows
    simp
  | cons p ps ih =>
    intro hnd rows
    obtain ⟨hpnotin, hnd2⟩ := List.nodup_cons.mp hnd
    rw [List.foldl_cons, ih hnd2 (mergePeriod target rows p)]
    have hinv : ∀ q, unknownGrossAt (mergePeriod target rows p) q = unknownGrossAt rows q :=
      fun q => unknownGrossAt_mergePeriod target ht rows p q
    simp only [hinv]
    unfold mergePeriod
    rw [List.map_map]
    congr 1
    funext r
    obtain ⟨rp, rc, rg⟩ := r
    by_cases hper : rp = p <;> by_cases hcode : rc = target <;>
      simp [Function.comp, hper, hcode, hpnotin, List.mem_cons]

/-- C2: on the rows of a fiscal year whose object class codes include the
unknown code 0 together with at least one other code, if no selected row
stamps period 12 under code 0 then check_class_codes adds the code-0
cumulative amount of every period 1..12 into the rows of the first strictly
positive code in order of appearance and returns the code list without code
0; if some row does stamp period 12 under code 0, the rows are left
untouched and code 0 stays in the returned code list as its own category. -/
theorem C2_category_merge :
    (∀ (rows : List FRow) (target : Int) (rest : List Int),
      0 ∈ uniqueFirst (rows.map FRow.code) →
      1 < (uniqueFirst (rows.map FRow.code)).length →
      (rows.filter (fun r => r.period = 12 ∧ r.code = 0)).length = 0 →
      (uniqueFirst (rows.map FRow.code)).filter (fun c => 0 < c) = target :: rest →
      check_class_codes rows =
        some (rows.map (fun r =>
          if r.code = target ∧ (1 ≤ r.period ∧ r.period ≤ 12) then
            { r with gross := r.gross + unknownGrossAt rows r.period } else r),
          target :: rest) ∧
      (0 : Int) ∉ target :: rest) ∧
    (∀ rows : List FRow,
      0 ∈ uniqueFirst (rows.map FRow.code) →
      1 < (uniqueFirst (rows.map FRow.code)).length →
      (rows.filter (fun r => r.period = 12 ∧ r.code = 0)).length ≠ 0 →
      check_class_codes rows = some (rows, uniqueFirst (rows.map FRow.code))) := by
  constructor
  · intro rows target rest h0 h1 h12 hkn
    have htmem : target ∈ (uniqueFirst (rows.map FRow.code)).filter (fun c => 0 < c) := by
      rw [hkn]; exact List.mem_cons_self _ _
    have htpos : (0 : Int) < target := by
      have := (List.mem_filter.mp htmem).2
      simpa using this
    have ht : target ≠ 0 := by omega
    constructor
    · unfold check_class_codes
      rw [if_pos ⟨h0, h1⟩, if_pos h12, hkn]
      have hnd : (List.range' 1 12).Nodup := by decide
      show some ((List.range' 1 12).foldl (mergePeriod target) rows, target :: rest) = _
      rw [foldl_mergePeriod target ht (List.range' 1 12) hnd rows]
      have hiff : ∀ n : Nat, n ∈ List.range' 1 12 ↔ 1 ≤ n ∧ n ≤ 12 := by
        intro n
        rw [List.mem_range'_1]
        omega
      simp only [hiff]
    · intro hmem
      have : (0 : Int) ∈ (uniqueFirst (rows.map FRow.code)).filter (fun c => 0 < c) := by
        rw [hkn]; exact hmem
      have := (List.mem_filter.mp this).2
      simp at this
  · intro rows h0 h1 h12
    unfold check_class_codes
    rw [if_pos ⟨h0, h1⟩, if_neg h12]

/-- Witness for C2 at the documented concrete rows: code 0 holds cumulative
5, 5 in periods 1 and 2, code 3 holds 20, 30, there is no period-12 row for
code 0, and the merge gives code 3 the series 25, 35 with code 0 dropped. -/
theorem C2_category_merge_witness :
    check_class_codes [⟨1, 0, 5⟩, ⟨2, 0, 5⟩, ⟨1, 3, 20⟩, ⟨2, 3, 30⟩] =
      some ([⟨1, 0, 5⟩, ⟨2, 0, 5⟩, ⟨1, 3, 25⟩, ⟨2, 3, 35⟩], [3]) ∧
    (0 : Int) ∉ [(3 : Int)] := by
  have h := C2_category_merge.1 [⟨1, 0, 5⟩, ⟨2, 0, 5⟩, ⟨1, 3, 20⟩, ⟨2, 3, 30⟩] 3 []
    (by decide) (by decide) (by decide) (by decide)
  refine ⟨h.1.trans ?_, h.2⟩
  norm_num [unknownGrossAt, List.filter]

/-! ### Pagination Collector: award index deduplication

Models AwardSearchDownload._search_award_type and search_awards. Each API
row carries its generated_internal_id plus its remaining fields; a page is
a list of rows, a category gives a list of pages. _search_award_type folds
the rows of its pages into a Python dict keyed by generated_internal_id
(assignment out[award_id] = row), and search_awards folds the category
dicts together with the double-unpacking merge, in which the later dict
values win. lastMatch picks the final row bearing a key in the order all
rows were returned. -/

structure AwardRow where
  generated_internal_id : String
  fields : List (String × String)
deriving DecidableEq

def insertRows (m : List (String × AwardRow)) (rows : List AwardRow) :
    List (String × AwardRow) :=
  rows.foldl (fun acc r => dictInsert acc r.generated_internal_id r) m

def search_award_type (pages : List (List AwardRow)) : List (String × AwardRow) :=
  pages.foldl insertRows []

def dictMerge (a b : List (String × AwardRow)) : List (String × AwardRow) :=
  b.foldl (fun acc p => dictInsert acc p.1 p.2) a

def search_awards (typePages : List (List (List AwardRow))) : List (String × AwardRow) :=
  typePages.foldl (fun out pages => dictMerge out (search_award_type pages)) []

def lastMatch (rows : List AwardRow) (k : String) : Option AwardRow :=
  rows.reverse.find? (fun r => r.generated_internal_id = k)

theorem insertRows_append (m : List (String × AwardRow)) (a b : List AwardRow) :
    insertRows m (a ++ b) = insertRows (insertRows m a) b := by
  simp [insertRows, List.foldl_append]

theorem nodup_keys_insertRows (rows : List AwardRow) :
    ∀ m : List (String × AwardRow), (m.map Prod.fst).Nodup →
    ((insertRows m rows).map Prod.fst).Nodup := by
  induction rows with
  | nil => intro m hm; exact hm
  | cons r rs ih =>
    intro m hm
    exact ih _ (nodup_keys_dictInsert _ _ _ hm)

theorem lastMatch_nil (k : String) : lastMatch [] k = none := rfl

theorem lastMatch_cons (r : AwardRow) (rs : List AwardRow) (k : String) :
    lastMatch (r :: rs) k =
      match lastMatch rs k with
      | some x => some x
      | none => if r.generated_internal_id = k then some r else none := by
  unfold lastMatch
  rw [List.reverse_cons, List.find?_append]
  cases h : rs.reverse.find? (fun x => decide (x.generated_internal_id = k)) with
  | some x => simp [h]
  | none =>
    by_cases hk : r.generated_internal_id = k <;> simp [h, List.find?, hk]

theorem lastMatch_append (a b : List AwardRow) (k : String) :
    lastMatch (a ++ b) k =
      match lastMatch b k with
      | some x => some x
      | none => lastMatch a k := by
  unfold lastMatch
  rw [List.reverse_append, List.find?_append]
  cases h : b.reverse.find? (fun x => decide (x.generated_internal_id = k)) with
  | some x => simp [h]
  | none => simp [h]

theorem lookupD_insertRows (rows : List AwardRow) :
    ∀ (m : List (String × AwardRow)) (k : String),
    lookupD (insertRows m rows) k =
      match lastMatch rows k with
      | some r => some r
      | none => lookupD m k := by
  induction rows with
  | nil => intro m k; rfl
  | cons r rs ih =>
    intro m k
    have hstep : insertRows m (r :: rs) =
        insertRows (dictInsert m r.generated_internal_id r) rs := rfl
    rw [hstep, ih, lastMatch_cons, lookupD_dictInsert]
    cases lastMatch rs k with
    | some x => rfl
    | none =>
      by_cases hk : r.generated_internal_id = k
      · simp [hk]
      · rw [if_neg (fun h : k = r.generated_internal_id => hk h.symm), if_neg hk]

theorem search_award_type_eq (pages : List (List AwardRow)) :
    search_award_type pages = insertRows [] pages.flatten := by
  suffices h : ∀ (ps : List (List AwardRow)) (m : List (String × AwardRow)),
      ps.foldl insertRows m = insertRows m ps.flatten by
    exact h pages []
  intro ps
  induction ps with
  | nil => intro m; rfl
  | cons p pt ih =>
    intro m
    rw [List.foldl_cons, ih, List.flatten_cons, insertRows_append]

theorem lookupD_none_of_not_mem_keys {β : Type} (m : List (String × β)) (k : String)
    (h : k ∉ m.map Prod.fst) : lookupD m k = none := by
  induction m with
  | nil => rfl
  | cons p rest ih =>
    obtain ⟨k0, v0⟩ := p
    simp only [List.map_cons, List.mem_cons] at h
    push_neg at h
    simp only [lookupD, if_neg (fun hh : k0 = k => h.1 hh.symm)]
    exact ih h.2

theorem nodup_keys_dictMerge (b : List (String × AwardRow)) :
    ∀ a : List (String × AwardRow), (a.map Prod.fst).Nodup →
    ((dictMerge a b).map Prod.fst).Nodup := by
  induction b with
  | nil => intro a ha; exact ha
  | cons p rest ih =>
    intro a ha
    exact ih _ (nodup_keys_dictInsert _ _ _ ha)

theorem lookupD_dictMerge (b : List (String × AwardRow)) :
    ∀ (a : List (String × AwardRow)) (k : String), (b.map Prod.fst).Nodup →
    lookupD (dictMerge a b) k =
      match lookupD b k with
      | some v => some v
      | none => lookupD a k := by
  induction b with
  | nil => intro a k _; rfl
  | cons p rest ih =>
    obtain ⟨k0, v0⟩ := p
    intro a k hnd
    simp only [List.map_cons, List.nodup_cons] at hnd
    have hstep : dictMerge a ((k0, v0) :: rest) = dictMerge (dictInsert a k0 v0) rest := rfl
    rw [hstep, ih _ k hnd.2, lookupD_dictInsert]
    by_cases hk : k = k0
    · subst hk
      rw [lookupD_none_of_not_mem_keys rest k hnd.1]
      simp [lookupD]
    · simp only [lookupD, if_neg (fun hh : k0 = k => hk hh.symm)]
      cases lookupD rest k with
      | some v => rfl
      | none => simp [hk]

/-- C8: the award index built by paginated search over all award-type
categories has no duplicate generated_internal_id keys (each identifier maps
to exactly one record), and the record stored for an identifier is the last
row bearing it in the order rows were returned across categories, pages and
rows, so a later row always overwrites an earlier one. -/
theorem C8_award_index_dedup :
    (∀ typePages : List (List (List AwardRow)),
      ((search_awards typePages).map Prod.fst).Nodup) ∧
    (∀ (typePages : List (List (List AwardRow))) (k : String),
      lookupD (search_awards typePages) k = lastMatch typePages.flatten.flatten k) := by
  have hnodup : ∀ typePages : List (List (List AwardRow)),
      ((search_awards typePages).map Prod.fst).Nodup := by
    intro typePages
    suffices h : ∀ (tps : List (List (List AwardRow))) (out : List (String × AwardRow)),
        (out.map Prod.fst).Nodup →
        ((tps.foldl (fun o pages => dictMerge o (search_award_type pages)) out).map
          Prod.fst).Nodup by
      exact h typePages [] (by simp)
    intro tps
    induction tps with
    | nil => intro out h; exact h
    | cons pages tpt ih =>
      intro out h
      exact ih _ (nodup_keys_dictMerge _ _ h)
  refine ⟨hnodup, ?_⟩
  intro typePages k
  induction typePages using List.reverseRecOn with
  | nil => rfl
  | append_singleton tps pages ih =>
    have hsplit : search_awards (tps ++ [pages]) =
        dictMerge (search_awards tps) (search_award_type pages) := by
      simp [search_awards, List.foldl_append]
    have hpagesnd : ((search_award_type pages).map Prod.fst).Nodup := by
      rw [search_award_type_eq]
      exact nodup_keys_insertRows _ [] (by simp)
    rw [hsplit, lookupD_dictMerge _ _ _ hpagesnd, search_award_type_eq,
      lookupD_insertRows]
    have hflat : (tps ++ [pages]).flatten.flatten =
        tps.flatten.flatten ++ pages.flatten := by
      simp
    rw [hflat, lastMatch_append]
    cases lastMatch pages.flatten k with
    | some x => rfl
    | none =>
      simp only [lookupD]
      exact ih

/-! ### Reconciler comparison line

Models AwardSearchDownload._make_tabbed_line. The two totals are exact
rationals; the Python int() conversion truncates toward zero, modelled by
ratTrunc; str.rjust(2) pads on the left with spaces. Only the two computed
quantities of the line, the difference and the percentage text, are
modelled -- the rest of the line is constant formatting. -/

def ratTrunc (q : Rat) : Int := q.num.tdiv q.den

def rjust (w : Nat) (s : String) : String :=
  if w ≤ s.length then s else String.mk (List.replicate (w - s.length) ' ') ++ s

def make_tabbed_diff (pa faf : Rat) : Rat := pa - faf

def make_tabbed_pct (pa faf : Rat) : String :=
  if pa ≠ 0 then rjust 2 (toString (ratTrunc (make_tabbed_diff pa faf / pa * 100)))
  else "--"

/-- C7: the comparison line reports the difference pa - faf; when pa is
nonzero the percentage is the truncated integer part of
(pa - faf) / pa * 100 rendered right-justified; when pa is zero the
percentage is the dashed placeholder and no division is attempted, for every
input pair. -/
theorem C7_reconciler_line (pa faf : Rat) :
    make_tabbed_diff pa faf = pa - faf ∧
    (pa ≠ 0 → make_tabbed_pct pa faf =
      rjust 2 (toString (ratTrunc ((pa - faf) / pa * 100)))) ∧
    (pa = 0 → make_tabbed_pct pa faf = "--") := by
  refine ⟨rfl, ?_, ?_⟩
  · intro h
    simp [make_tabbed_pct, make_tabbed_diff, h]
  · intro h
    simp [make_tabbed_pct, h]

/-- Witness for C7: totals 100 and 80 give difference 20 and the 20 percent
text, and a zero summary total gives the dashed placeholder. -/
theorem C7_reconciler_line_witness :
    make_tabbed_diff 100 80 = 20 ∧
    make_tabbed_pct 100 80 = "20" ∧
    make_tabbed_pct 0 80 = "--" := by
  refine ⟨(C7_reconciler_line 100 80).1.trans (by norm_num), ?_, ?_⟩
  · have h := (C7_reconciler_line 100 80).2.1 (by norm_num)
    have harg : ((100 : Rat) - 80) / 100 * 100 = 20 := by norm_num
    rw [harg] at h
    rw [h]
    decide
  · exact (C7_reconciler_line 0 80).2.2 rfl

/-! ### Timestamp map update

Models AwardSearchDownload.export_downloaded_time: read the per-artifact
timestamp map if the file exists (otherwise start from the empty map), set
the entry keyed by the file name of the exported file to the current time,
and write the map back. -/

def export_downloaded_time (prior : Option (List (String × String)))
    (name now : String) : List (String × String) :=
  dictInsert (prior.getD []) name now

/-- C10: export_downloaded_time sets exactly the entry keyed by the file
name to the current time: that key now maps to the new time, every other
key maps to whatever it mapped to before, and when no timestamp file
existed the resulting map holds exactly the one new entry. -/
theorem C10_timestamp_frame (prior : Option (List (String × String)))
    (name now : String) :
    lookupD (export_downloaded_time prior name now) name = some now ∧
    (∀ k, k ≠ name →
      lookupD (export_downloaded_time prior name now) k = lookupD (prior.getD []) k) ∧
    export_downloaded_time none name now = [(name, now)] := by
  refine ⟨?_, ?_, rfl⟩
  · simp [export_downloaded_time, lookupD_dictInsert]
  · intro k hk
    simp [export_downloaded_time, lookupD_dictInsert, hk]

/-- Witness for C10: updating one artifact of a two-entry map leaves the
other entry unchanged and records the new time. -/
theorem C10_timestamp_frame_witness :
    lookupD (export_downloaded_time
      (some [("a.json", "t1"), ("b.json", "t2")]) "b.json" "t3") "b.json" = some "t3" ∧
    lookupD (export_downloaded_time
      (some [("a.json", "t1"), ("b.json", "t2")]) "b.json" "t3") "a.json" = some "t1" := by
  constructor
  · exact (C10_timestamp_frame (some [("a.json", "t1"), ("b.json", "t2")]) "b.json" "t3").1
  · exact ((C10_timestamp_frame (some [("a.json", "t1"), ("b.json", "t2")]) "b.json" "t3").2.1
      "a.json" (by decide)).trans (by decide)

/-! ### Download State Machine and Batch Downloader

Models request_download, check_download_status, download_award_data and
download_awards_chunk / download_awards. The remote service is an oracle
DLEnv: requestResp gives the JSON body answered by the download-job POST
for an award (statusUrl none models a body carrying only an error detail),
pollResp gives the status answered by the k-th status GET of one
download_award_data call, and now is the clock value stamped into the
Downloaded Marker. DLState carries the per-award filesystem facts the code
consults: whether the raw folder exists, the Downloaded Marker time, and
the parsed content of the pending-download file when it exists. Each
operation returns its result, the new state, and how many network requests
it issued; a raised exception is modelled as a none result. -/

inductive DLStatus
  | running
  | ready
  | finished
  | other (s : String)
deriving DecidableEq

structure PendingInfo where
  statusUrl : Option String
  fileUrl : Option String
deriving DecidableEq

structure DLEnv where
  requestResp : String → PendingInfo
  pollResp : String → Nat → DLStatus
  now : Int

structure DLState where
  folderOf : String → Bool
  timeOf : String → Int
  pendingOf : String → Option PendingInfo

def setPending (st : DLState) (aid : String) (p : Option PendingInfo) : DLState :=
  { st with pendingOf := Function.update st.pendingOf aid p }

def markDownloaded (st : DLState) (aid : String) (t : Int) : DLState :=
  { folderOf := Function.update st.folderOf aid true,
    timeOf := Function.update st.timeOf aid t,
    pendingOf := Function.update st.pendingOf aid none }

def request_download (env : DLEnv) (st : DLState) (aid : String) :
    Bool × DLState × Nat :=
  match st.pendingOf aid with
  | some _ => (true, st, 0)
  | none =>
    let res := env.requestResp aid
    match res.statusUrl with
    | none => (false, st, 1)
    | some _ => (true, setPending st aid (some res), 1)

def check_download_status (env : DLEnv) (st : DLState) (aid : String) (attempt : Nat) :
    Option (Bool × DLState × Nat) :=
  match st.pendingOf aid with
  | none => none
  | some pd =>
    match pd.statusUrl, pd.fileUrl with
    | some _, some _ =>
      match env.pollResp aid attempt with
      | .finished => some (false, markDownloaded st aid env.now, 2)
      | .running => some (true, st, 1)
      | .ready => some (true, st, 1)
      | .other _ => some (false, setPending st aid none, 1)
    | _, _ => some (false, setPending st aid none, 0)

def poll_status (env : DLEnv) (aid : String) :
    Nat → Nat → DLState → Option (Bool × DLState × Nat)
  | _, 0, st => some (true, st, 0)
  | attempt, fuel + 1, st =>
    match check_download_status env st aid attempt with
    | none => none
    | some (pending, st1, c) =>
      if pending then
        match poll_status env aid (attempt + 1) fuel st1 with
        | none => none
        | some (r, st2, c2) => some (r, st2, c + c2)
      else some (pending, st1, c)

def download_award_data (env : DLEnv) (critical : Option Int) (st : DLState)
    (aid : String) (overwrite : Bool) (tries : Nat) : Option (Bool × DLState × Nat) :=
  if !overwrite && st.folderOf aid then
    match critical with
    | none => some (false, st, 0)
    | some c =>
      if st.timeOf aid ≥ c then some (false, st, 0)
      else download_award_core env st aid tries
  else download_award_core env st aid tries
where
  download_award_core (env : DLEnv) (st : DLState) (aid : String) (tries : Nat) :
      Option (Bool × DLState × Nat) :=
    match request_download env st aid with
    | (false, st1, c1) => some (false, st1, c1)
    | (true, st1, c1) =>
      if tries = 0 then none
      else
        match poll_status env aid 0 tries st1 with
        | none => none
        | some (r, st2, c2) => some (r, st2, c1 + c2)

inductive StepOutcome
  | interrupt
  | err (msg : String)
  | done (pending : Bool)
deriving DecidableEq

inductive ChunkErr
  | interrupted
  | raised (msg : String)
deriving DecidableEq

def leadMatch : List Char → List Char → Bool
  | [], _ => true
  | _ :: _, [] => false
  | a :: as, b :: bs => a == b && leadMatch as bs

def hasSeq (ned : List Char) : List Char → Bool
  | [] => ned.isEmpty
  | b :: bs => leadMatch ned (b :: bs) || hasSeq ned bs

def strContains (hay ned : String) : Bool := hasSeq ned.data hay.data

def process_award (stopOnErrors : Bool) (aid : String) (acc : List String) :
    StepOutcome → Except ChunkErr (List String)
  | .interrupt => .error .interrupted
  | .done p => .ok (if p then acc ++ [aid] else acc)
  | .err m =>
    if strContains m "Connection aborted" then .ok (acc ++ [aid])
    else if strContains m "Max retries exceeded with url" then .ok (acc ++ [aid])
    else if stopOnErrors then .error (.raised m) else .ok acc

def process_list (step : DLState → String → StepOutcome × DLState × Nat)
    (stopOnErrors : Bool) :
    DLState → List String → List String → Except ChunkErr (List String × DLState × Nat)
  | st, acc, [] => .ok (acc, st, 0)
  | st, acc, aid :: rest =>
    match step st aid with
    | (out, st1, c) =>
      match process_award stopOnErrors aid acc out with
      | .error e => .error e
      | .ok acc1 =>
        match process_list step stopOnErrors st1 acc1 rest with
        | .error e => .error e
        | .ok (l, st2, c2) => .ok (l, st2, c + c2)

def download_awards_chunk (step : DLState → String → StepOutcome × DLState × Nat)
    (stopOnErrors : Bool) :
    Nat → DLState → List String → Except ChunkErr (List String × DLState × Nat)
  | 0, st, awards => .ok (awards, st, 0)
  | fuel + 1, st, awards =>
    if awards.isEmpty then .ok ([], st, 0)
    else
      match process_list step stopOnErrors st [] awards with
      | .error e => .error e
      | .ok (newList, st1, c) =>
        match download_awards_chunk step stopOnErrors fuel st1 newList with
        | .error e => .error e
        | .ok (l, st2, c2) => .ok (l, st2, c + c2)

def dl_step (env : DLEnv) (critical : Option Int) (st : DLState) (aid : String) :
    StepOutcome × DLState × Nat :=
  match download_award_data env critical st aid false 10 with
  | some (p, st1, c) => (.done p, st1, c)
  | none => (.err "FileNotFoundError", st, 0)

def chunks10 : List String → List (List String)
  | [] => []
  | a :: rest => ((a :: rest).take 10) :: chunks10 ((a :: rest).drop 10)
termination_by l => l.length
decreasing_by
  simp only [List.length_drop, List.length_cons]
  omega

def download_awards_go (step : DLState → String → StepOutcome × DLState × Nat)
    (stopOnErrors : Bool) (fuel : Nat) :
    DLState → List (List String) → Except ChunkErr (DLState × Nat)
  | st, [] => .ok (st, 0)
  | st, c :: cs =>
    match download_awards_chunk step stopOnErrors fuel st c with
    | .error e => .error e
    | .ok (_, st1, n) =>
      match download_awards_go step stopOnErrors fuel st1 cs with
      | .error e => .error e
      | .ok (st2, n2) => .ok (st2, n + n2)

def download_awards (step : DLState → String → StepOutcome × DLState × Nat)
    (stopOnErrors : Bool) (fuel : Nat) (st : DLState) (awards : List String) :
    Except ChunkErr (DLState × Nat) :=
  download_awards_go step stopOnErrors fuel st (chunks10 awards)

theorem download_award_data_guard (env : DLEnv) (critical : Option Int) (st : DLState)
    (aid : String) (tries : Nat) (hfolder : st.folderOf aid = true)
    (hfresh : critical = none ∨ ∃ c, critical = some c ∧ st.timeOf aid ≥ c) :
    download_award_data env critical st aid false tries = some (false, st, 0) := by
  unfold download_award_data
  rcases hfresh with h | ⟨c, hc, hge⟩
  · subst h
    simp [hfolder]
  · subst hc
    simp [hfolder, hge]

theorem process_list_guard (env : DLEnv) (so : Bool) (awards : List String) :
    ∀ (st : DLState) (acc : List String), (∀ a ∈ awards, st.folderOf a = true) →
    process_list (dl_step env none) so st acc awards = .ok (acc, st, 0) := by
  induction awards with
  | nil => intro st acc _; rfl
  | cons a rest ih =>
    intro st acc h
    have hstep : dl_step env none st a = (.done false, st, 0) := by
      unfold dl_step
      rw [download_award_data_guard env none st a 10 (h a (List.mem_cons_self a rest))
        (Or.inl rfl)]
    have hrest := ih st acc (fun b hb => h b (List.mem_cons_of_mem a hb))
    simp [process_list, process_award, hstep, hrest]

theorem download_awards_chunk_nil (step : DLState → String → StepOutcome × DLState × Nat)
    (so : Bool) (fuel : Nat) (st : DLState) :
    download_awards_chunk step so fuel st [] = .ok ([], st, 0) := by
  cases fuel <;> rfl

theorem download_awards_chunk_guard (env : DLEnv) (so : Bool) (fuel : Nat)
    (st : DLState) (awards : List String) (h : ∀ a ∈ awards, st.folderOf a = true) :
    ∃ leftover, download_awards_chunk (dl_step env none) so fuel st awards =
      .ok (leftover, st, 0) := by
  cases fuel with
  | zero => exact ⟨awards, rfl⟩
  | succ n =>
    refine ⟨[], ?_⟩
    by_cases hemp : awards.isEmpty
    · simp [download_awards_chunk, hemp]
    · simp only [download_awards_chunk, hemp, if_neg, Bool.false_eq_true, if_false]
      rw [process_list_guard env so awards st [] h]
      simp [download_awards_chunk_nil]

theorem chunks10_mem : ∀ (l c : List String), c ∈ chunks10 l → ∀ a ∈ c, a ∈ l := by
  intro l
  induction l using chunks10.induct with
  | case1 => intro c hc; simp [chunks10] at hc
  | case2 x rest ih =>
    intro c hc a ha
    rw [chunks10] at hc
    rcases List.mem_cons.mp hc with h | h
    · subst h
      exact List.take_subset _ _ ha
    · exact List.drop_subset _ _ (ih c h a ha)

theorem download_awards_go_guard (env : DLEnv) (so : Bool) (fuel : Nat) :
    ∀ (cs : List (List String)) (st : DLState),
    (∀ c ∈ cs, ∀ a ∈ c, st.folderOf a = true) →
    download_awards_go (dl_step env none) so fuel st cs = .ok (st, 0) := by
  intro cs
  induction cs with
  | nil => intro st _; rfl
  | cons c ct ih =>
    intro st h
    obtain ⟨l, hl⟩ := download_awards_chunk_guard env so fuel st c
      (h c (List.mem_cons_self c ct))
    simp only [download_awards_go, hl]
    rw [ih st (fun d hd a ha => h d (List.mem_cons_of_mem c hd) a ha)]

/-- C4: the per-award entry guard: when the raw folder of an award already
exists and either no critical_download_date is configured or the Downloaded
Marker time is at or after it, download_award_data returns False with the
state untouched and zero network requests; consequently a full
download_awards sweep over awards whose folders all exist, with no cutoff
configured, issues zero network requests. -/
theorem C4_rerun_idempotent :
    (∀ (env : DLEnv) (critical : Option Int) (st : DLState) (aid : String) (tries : Nat),
      st.folderOf aid = true →
      (critical = none ∨ ∃ c, critical = some c ∧ st.timeOf aid ≥ c) →
      download_award_data env critical st aid false tries = some (false, st, 0)) ∧
    (∀ (env : DLEnv) (so : Bool) (fuel : Nat) (st : DLState) (awards : List String),
      (∀ a ∈ awards, st.folderOf a = true) →
      download_awards (dl_step env none) so fuel st awards = .ok (st, 0)) := by
  constructor
  · intro env critical st aid tries hfolder hfresh
    exact download_award_data_guard env critical st aid tries hfolder hfresh
  · intro env so fuel st awards h
    unfold download_awards
    exact download_awards_go_guard env so fuel (chunks10 awards) st
      (fun c hc a ha => h a (chunks10_mem awards c hc a ha))

/-- Witness for C4: with every folder present and no cutoff, a single award
returns not pending with zero requests and a two-award sweep issues zero
requests. -/
theorem C4_rerun_idempotent_witness :
    download_award_data ⟨fun _ => ⟨none, none⟩, fun _ _ => .running, 0⟩ none
      ⟨fun _ => true, fun _ => 0, fun _ => none⟩ "a" false 10 =
      some (false, ⟨fun _ => true, fun _ => 0, fun _ => none⟩, 0) ∧
    download_awards (dl_step ⟨fun _ => ⟨none, none⟩, fun _ _ => .running, 0⟩ none) true 3
      ⟨fun _ => true, fun _ => 0, fun _ => none⟩ ["a", "b"] =
      .ok (⟨fun _ => true, fun _ => 0, fun _ => none⟩, 0) := by
  constructor
  · exact C4_rerun_idempotent.1 ⟨fun _ => ⟨none, none⟩, fun _ _ => .running, 0⟩ none
      ⟨fun _ => true, fun _ => 0, fun _ => none⟩ "a" 10 rfl (Or.inl rfl)
  · exact C4_rerun_idempotent.2 ⟨fun _ => ⟨none, none⟩, fun _ _ => .running, 0⟩ true 3
      ⟨fun _ => true, fun _ => 0, fun _ => none⟩ ["a", "b"] (fun a _ => rfl)

theorem poll_status_all_running (env : DLEnv) (aid : String) (pd : PendingInfo)
    (u v : String) (hsu : pd.statusUrl = some u) (hfu : pd.fileUrl = some v) :
    ∀ (fuel attempt : Nat) (st : DLState), st.pendingOf aid = some pd →
    (∀ k, attempt ≤ k → k < attempt + fuel →
      env.pollResp aid k = .running ∨ env.pollResp aid k = .ready) →
    poll_status env aid attempt fuel st = some (true, st, fuel) := by
  obtain ⟨su, fu⟩ := pd
  dsimp only at hsu hfu
  subst hsu
  subst hfu
  intro fuel
  induction fuel with
  | zero => intro attempt st _ _; rfl
  | succ n ih =>
    intro attempt st hp hall
    have hstat := hall attempt (le_refl _) (by omega)
    have hcheck : check_download_status env st aid attempt = some (true, st, 1) := by
      unfold check_download_status
      rw [hp]
      rcases hstat with h | h <;> simp [h]
    have hrec := ih (attempt + 1) st hp (fun k hk1 hk2 => hall k (by omega) (by omega))
    simp only [poll_status, hcheck, if_pos, hrec]
    rw [Nat.add_comm]

/-- C5: when every status poll of one download_award_data call answers
running or ready for all tries attempts, the call returns True (still
pending) without raising, with one network request per poll, leaving the
state, and so the persisted pending-download file, untouched; and
download_awards_chunk re-appends such an award to the pending list. -/
theorem C5_poll_budget_pending :
    (∀ (env : DLEnv) (critical : Option Int) (st : DLState) (aid : String)
      (pd : PendingInfo) (u v : String) (tries : Nat),
      0 < tries → st.folderOf aid = false → st.pendingOf aid = some pd →
      pd.statusUrl = some u → pd.fileUrl = some v →
      (∀ k, k < tries → env.pollResp aid k = .running ∨ env.pollResp aid k = .ready) →
      download_award_data env critical st aid false tries = some (true, st, tries)) ∧
    (∀ (env : DLEnv) (critical : Option Int) (st : DLState) (aid : String)
      (pd : PendingInfo) (u v : String) (so : Bool) (acc : List String),
      st.folderOf aid = false → st.pendingOf aid = some pd →
      pd.statusUrl = some u → pd.fileUrl = some v →
      (∀ k, k < 10 → env.pollResp aid k = .running ∨ env.pollResp aid k = .ready) →
      process_list (dl_step env critical) so st acc [aid] = .ok (acc ++ [aid], st, 10)) := by
  have hmain : ∀ (env : DLEnv) (critical : Option Int) (st : DLState) (aid : String)
      (pd : PendingInfo) (u v : String) (tries : Nat),
      0 < tries → st.folderOf aid = false → st.pendingOf aid = some pd →
      pd.statusUrl = some u → pd.fileUrl = some v →
      (∀ k, k < tries → env.pollResp aid k = .running ∨ env.pollResp aid k = .ready) →
      download_award_data env critical st aid false tries = some (true, st, tries) := by
    intro env critical st aid pd u v tries htries hfolder hp hsu hfu hall
    have hreq : request_download env st aid = (true, st, 0) := by
      unfold request_download
      rw [hp]
    have hpoll := poll_status_all_running env aid pd u v hsu hfu tries 0 st hp
      (fun k hk1 hk2 => hall k (by omega))
    unfold download_award_data download_award_data.download_award_core
    rw [hfolder]
    simp only [Bool.not_false, Bool.true_and, Bool.false_eq_true, if_false]
    rw [hreq]
    simp only [if_neg (Nat.pos_iff_ne_zero.mp htries), hpoll]
    rw [Nat.zero_add]
  constructor
  · exact hmain
  · intro env critical st aid pd u v so acc hfolder hp hsu hfu hall
    have hstep : dl_step env critical st aid = (.done true, st, 10) := by
      unfold dl_step
      rw [hmain env critical st aid pd u v 10 (by omega) hfolder hp hsu hfu hall]
    simp only [process_list, hstep, process_award, if_pos]

/-- Witness for C5: an award with a well-formed pending file whose polls all
answer running stays pending after ten polls with the pending file intact,
and is re-appended by the chunk loop. -/
theorem C5_poll_budget_pending_witness :
    download_award_data ⟨fun _ => ⟨none, none⟩, fun _ _ => .running, 0⟩ none
      ⟨fun _ => false, fun _ => 0, fun _ => some ⟨some "s", some "f"⟩⟩ "a" false 10 =
      some (true, ⟨fun _ => false, fun _ => 0, fun _ => some ⟨some "s", some "f"⟩⟩, 10) ∧
    process_list
      (dl_step ⟨fun _ => ⟨none, none⟩, fun _ _ => .running, 0⟩ none) false
      ⟨fun _ => false, fun _ => 0, fun _ => some ⟨some "s", some "f"⟩⟩ [] ["a"] =
      .ok (["a"], ⟨fun _ => false, fun _ => 0, fun _ => some ⟨some "s", some "f"⟩⟩, 10) := by
  constructor
  · exact C5_poll_budget_pending.1 ⟨fun _ => ⟨none, none⟩, fun _ _ => .running, 0⟩ none
      ⟨fun _ => false, fun _ => 0, fun _ => some ⟨some "s", some "f"⟩⟩ "a"
      ⟨some "s", some "f"⟩ "s" "f" 10 (by omega) rfl rfl rfl rfl (fun k _ => Or.inl rfl)
  · have h := C5_poll_budget_pending.2 ⟨fun _ => ⟨none, none⟩, fun _ _ => .running, 0⟩ none
      ⟨fun _ => false, fun _ => 0, fun _ => some ⟨some "s", some "f"⟩⟩ "a"
      ⟨some "s", some "f"⟩ "s" "f" false [] rfl rfl rfl rfl (fun k _ => Or.inl rfl)
    simpa using h

def handlerContinues (stopOnErrors : Bool) : StepOutcome → Prop
  | .interrupt => False
  | .done _ => True
  | .err m =>
    strContains m "Connection aborted" = true ∨
    strContains m "Max retries exceeded with url" = true ∨
    stopOnErrors = false

theorem process_award_ok_of_continues (so : Bool) (aid : String) (acc : List String)
    (out : StepOutcome) (h : handlerContinues so out) :
    ∃ acc2, process_award so aid acc out = .ok acc2 := by
  cases out with
  | interrupt => exact h.elim
  | done p => exact ⟨_, rfl⟩
  | err m =>
    unfold process_award
    dsimp only
    by_cases h1 : strContains m "Connection aborted" = true
    · rw [if_pos h1]; exact ⟨_, rfl⟩
    · rw [if_neg h1]
      by_cases h2 : strContains m "Max retries exceeded with url" = true
      · rw [if_pos h2]; exact ⟨_, rfl⟩
      · rw [if_neg h2]
        have hso : so = false := by
          rcases h with h | h | h
          · exact absurd h h1
          · exact absurd h h2
          · exact h
        subst hso
        exact ⟨acc, by simp⟩

theorem process_list_interrupt (step : DLState → String → StepOutcome × DLState × Nat)
    (so : Bool) (before : List String) :
    ∀ (st : DLState) (acc : List String) (aid : String) (after : List String),
    (∀ (s : DLState) (b : String), b ∈ before → handlerContinues so (step s b).1) →
    (∀ s : DLState, (step s aid).1 = .interrupt) →
    process_list step so st acc (before ++ aid :: after) = .error .interrupted := by
  induction before with
  | nil =>
    intro st acc aid after _ hintr
    rcases hs : step st aid with ⟨out, st1, c⟩
    have hout : out = .interrupt := by
      have h := hintr st
      rw [hs] at h
      exact h
    subst hout
    simp [process_list, hs, process_award]
  | cons b before2 ih =>
    intro st acc aid after hbef hintr
    rcases hs : step st b with ⟨out, st1, c⟩
    have hcont : handlerContinues so out := by
      have h := hbef st b (List.mem_cons_self b before2)
      rw [hs] at h
      exact h
    obtain ⟨acc2, hpa⟩ := process_award_ok_of_continues so b acc out hcont
    have hrec := ih st1 acc2 aid after
      (fun s b2 hb2 => hbef s b2 (List.mem_cons_of_mem b hb2)) hintr
    simp [process_list, hs, hpa, hrec]

/-- C6: a KeyboardInterrupt outcome always escapes the batch: the per-award
handler maps an interrupt outcome straight to the interrupted error without
consulting the transient-message tests, processing a list whose awards
before the interrupting one are all absorbed by the handler ends in the
interrupted error, and the download_awards_chunk sweep loop propagates that
error instead of requeueing or skipping. -/
theorem C6_interrupt_propagates :
    (∀ (so : Bool) (aid : String) (acc : List String),
      process_award so aid acc .interrupt = .error .interrupted) ∧
    (∀ (step : DLState → String → StepOutcome × DLState × Nat) (so : Bool)
      (st : DLState) (acc : List String) (before : List String) (aid : String)
      (after : List String),
      (∀ (s : DLState) (b : String), b ∈ before → handlerContinues so (step s b).1) →
      (∀ s : DLState, (step s aid).1 = .interrupt) →
      process_list step so st acc (before ++ aid :: after) = .error .interrupted) ∧
    (∀ (step : DLState → String → StepOutcome × DLState × Nat) (so : Bool)
      (fuel : Nat) (st : DLState) (before : List String) (aid : String)
      (after : List String),
      (∀ (s : DLState) (b : String), b ∈ before → handlerContinues so (step s b).1) →
      (∀ s : DLState, (step s aid).1 = .interrupt) →
      download_awards_chunk step so (fuel + 1) st (before ++ aid :: after) =
        .error .interrupted) := by
  refine ⟨fun so aid acc => rfl, ?_, ?_⟩
  · intro step so st acc before aid after hbef hintr
    exact process_list_interrupt step so before st acc aid after hbef hintr
  · intro step so fuel st before aid after hbef hintr
    have hpl := process_list_interrupt step so before st [] aid after hbef hintr
    have hne : (before ++ aid :: after).isEmpty = false := by
      cases before <;> rfl
    simp [download_awards_chunk, hne, hpl]

/-- Witness for C6: a step that raises the interrupt on its only award makes
the handler, the list pass and the chunk loop all end interrupted. -/
theorem C6_interrupt_propagates_witness :
    process_award true "x" [] .interrupt = .error .interrupted ∧
    process_list (fun s _ => (.interrupt, s, 0)) true
      ⟨fun _ => false, fun _ => 0, fun _ => none⟩ [] ["x"] = .error .interrupted ∧
    download_awards_chunk (fun s _ => (.interrupt, s, 0)) true 1
      ⟨fun _ => false, fun _ => 0, fun _ => none⟩ ["x"] = .error .interrupted := by
  refine ⟨C6_interrupt_propagates.1 true "x" [], ?_, ?_⟩
  · have h := C6_interrupt_propagates.2.1 (fun s _ => (.interrupt, s, 0)) true
      ⟨fun _ => false, fun _ => 0, fun _ => none⟩ [] [] "x" []
      (fun s b hb => absurd hb (List.not_mem_nil b)) (fun s => rfl)
    simpa using h
  · have h := C6_interrupt_propagates.2.2 (fun s _ => (.interrupt, s, 0)) true 0
      ⟨fun _ => false, fun _ => 0, fun _ => none⟩ [] "x" []
      (fun s b hb => absurd hb (List.not_mem_nil b)) (fun s => rfl)
    simpa using h

theorem check_download_status_malformed (env : DLEnv) (st : DLState) (aid : String)
    (pd : PendingInfo) (attempt : Nat) (hp : st.pendingOf aid = some pd)
    (hmal : pd.statusUrl = none ∨ pd.fileUrl = none) :
    check_download_status env st aid attempt = some (false, setPending st aid none, 0) := by
  obtain ⟨su, fu⟩ := pd
  unfold check_download_status
  rw [hp]
  rcases hmal with h | h <;> dsimp only at h <;> subst h
  · cases fu <;> rfl
  · cases su <;> rfl

/-- C9: a persisted pending-download file that lacks status_url or file_url
makes check_download_status delete the file and return False without
raising and without polling; a whole download_award_data call over that
state likewise returns False without raising, with the file deleted and no
network request; and on the next attempt request_download finds no pending
file and issues one fresh request to the download endpoint. -/
theorem C9_malformed_pending_recovery :
    (∀ (env : DLEnv) (st : DLState) (aid : String) (pd : PendingInfo) (attempt : Nat),
      st.pendingOf aid = some pd → (pd.statusUrl = none ∨ pd.fileUrl = none) →
      check_download_status env st aid attempt =
        some (false, setPending st aid none, 0)) ∧
    (∀ (st : DLState) (aid : String),
      (setPending st aid none).pendingOf aid = none) ∧
    (∀ (env : DLEnv) (st : DLState) (aid : String), st.pendingOf aid = none →
      ∃ r s2, request_download env st aid = (r, s2, 1)) ∧
    (∀ (env : DLEnv) (critical : Option Int) (st : DLState) (aid : String)
      (pd : PendingInfo) (tries : Nat),
      st.folderOf aid = false →
      st.pendingOf aid = some pd → (pd.statusUrl = none ∨ pd.fileUrl = none) →
      download_award_data env critical st aid false (tries + 1) =
        some (false, setPending st aid none, 0)) := by
  refine ⟨check_download_status_malformed, ?_, ?_, ?_⟩
  · intro st aid
    simp [setPending]
  · intro env st aid hp
    unfold request_download
    rw [hp]
    cases h : (env.requestResp aid).statusUrl with
    | none => exact ⟨false, st, by simp [h]⟩
    | some u => exact ⟨true, setPending st aid (some (env.requestResp aid)), by simp [h]⟩
  · intro env critical st aid pd tries hfolder hp hmal
    have hreq : request_download env st aid = (true, st, 0) := by
      unfold request_download
      rw [hp]
    have hcheck := check_download_status_malformed env st aid pd 0 hp hmal
    unfold download_award_data download_award_data.download_award_core
    rw [hfolder]
    simp only [Bool.not_false, Bool.true_and, Bool.false_eq_true, if_false]
    rw [hreq]
    simp [poll_status, hcheck]

/-- Witness for C9: a pending file whose file_url is missing is discarded,
the call reports not pending, and the next request issues one fresh POST. -/
theorem C9_malformed_pending_recovery_witness :
    check_download_status ⟨fun _ => ⟨some "s2", some "f2"⟩, fun _ _ => .running, 0⟩
      ⟨fun _ => false, fun _ => 0, fun _ => some ⟨some "s", none⟩⟩ "a" 0 =
      some (false,
        setPending ⟨fun _ => false, fun _ => 0, fun _ => some ⟨some "s", none⟩⟩ "a" none,
        0) ∧
    (setPending ⟨fun _ => false, fun _ => 0, fun _ => some ⟨some "s", none⟩⟩ "a"
      none).pendingOf "a" = none ∧
    (∃ r s2, request_download ⟨fun _ => ⟨some "s2", some "f2"⟩, fun _ _ => .running, 0⟩
      (setPending ⟨fun _ => false, fun _ => 0, fun _ => some ⟨some "s", none⟩⟩ "a" none)
      "a" = (r, s2, 1)) := by
  refine ⟨?_, ?_, ?_⟩
  · exact C9_malformed_pending_recovery.1
      ⟨fun _ => ⟨some "s2", some "f2"⟩, fun _ _ => .running, 0⟩
      ⟨fun _ => false, fun _ => 0, fun _ => some ⟨some "s", none⟩⟩ "a"
      ⟨some "s", none⟩ 0 rfl (Or.inr rfl)
  · exact C9_malformed_pending_recovery.2.1
      ⟨fun _ => false, fun _ => 0, fun _ => some ⟨some "s", none⟩⟩ "a"
  · exact C9_malformed_pending_recovery.2.2.1
      ⟨fun _ => ⟨some "s2", some "f2"⟩, fun _ _ => .running, 0⟩
      (setPending ⟨fun _ => false, fun _ => 0, fun _ => some ⟨some "s", none⟩⟩ "a" none)
      "a" (by simp [setPending])

end Awards
